import Mathlib

/-!
Verification of `bench/benchmark-blocking-sizes.cpp` (Eigen benchmark harness).

This file gives a shallow embedding of the benchmark harness's core algorithms:
the compact size-triple codec, the trial (`benchmark_t`) data model with its
adaptive timing loop, the clock-speed probe's trimmed-sum reduction, the
drift-aware scheduler loop, and the final sort-and-deduplicate result reducer.

Modelling conventions:
- machine integers (`size_t`, `uint16_t`, `uint8_t`) are modelled as `Nat`;
  a `% 2^w` reduction is written out where the C++ type could truncate
  (`compact_size_triple` returns `uint16_t`);
- `float`/`double` quantities (timings, gflops, clock-speed estimates) are
  modelled as `ℚ`; the reducer and scheduler only ever compare and copy these
  values, and comparison of floats is exact, so the order embedding into `ℚ`
  is faithful for the properties proved here;
- external effects (the CPU-time clock, the wall clock, the probe results, the
  cost of one kernel invocation) are injected as explicit oracle streams;
- `std::sort` is modelled by `List.insertionSort` with the non-strict
  complement of the source's `operator<`; `std::sort`'s contract is exactly
  "a permutation of the input, sorted w.r.t. the comparator", and both facts
  are available for `insertionSort`, so everything proved below holds for any
  conforming `std::sort` implementation;
- the unbounded `while (true)` timing loop and the scheduler loop are modelled
  with explicit fuel (`none`/`.hung` = the loop did not finish within the
  fuel); the backoff sleep loop terminates intrinsically and is modelled by
  well-founded recursion.
-/

/-! ### The size-triple codec (lines 59-90 of the source) -/

/-- `size_triple_t`: a triple of K,M,N sizes for a matrix product. -/
structure size_triple_t where
  k : Nat
  m : Nat
  n : Nat
deriving DecidableEq

/-- `log2_pot` (lines 73-77): `size_t l = 0; while (x >>= 1) l++; return l;`.
The loop body halves `x` and increments `l` while the halved value is nonzero,
so `l` ends up as the number of times `x` can be halved before reaching zero. -/
def log2_pot (x : Nat) : Nat :=
  if x / 2 = 0 then 0 else log2_pot (x / 2) + 1
termination_by x
decreasing_by
  exact Nat.div_lt_self (by omega) (by omega)

/-- `compact_size_triple(k, m, n)` (lines 82-85): pack the three `log2_pot`
values into a 12-bit key; the C++ return type is `uint16_t`, hence `% 2^16`. -/
def compact_size_triple (k m n : Nat) : Nat :=
  (((log2_pot k) <<< 8) ||| ((log2_pot m) <<< 4) ||| (log2_pot n)) % 65536

/-- `size_triple_t(uint16_t compact)` (lines 65-70): decode a compact key by
extracting each 4-bit field and left-shifting 1 by it. -/
def size_triple_t.ofCompact (compact : Nat) : size_triple_t where
  k := 1 <<< ((compact &&& 0xf00) >>> 8)
  m := 1 <<< ((compact &&& 0x0f0) >>> 4)
  n := 1 <<< ((compact &&& 0x00f) >>> 0)

/-! ### The trial data model (`benchmark_t`, lines 94-121) -/

/-- One benchmark trial. Field-for-field image of the C++ struct; `gflops` and
`min_accurate_time` are `float` in the source, modelled as `ℚ`. -/
structure benchmark_t where
  compact_product_size : Nat
  compact_block_size : Nat
  use_default_block_size : Bool
  gflops : ℚ
  min_working_set_size : Nat
  min_accurate_time : ℚ
deriving DecidableEq

/-- The six-argument constructor (lines 102-110): explicit blocking sizes.
The globals `g_min_working_set_size` and `g_min_accurate_time` that the C++
constructor reads are passed explicitly. -/
def benchmark_t.mkCustom (pk pm pn bk bm bn : Nat)
    (g_min_working_set_size : Nat) (g_min_accurate_time : ℚ) : benchmark_t where
  compact_product_size := compact_size_triple pk pm pn
  compact_block_size := compact_size_triple bk bm bn
  use_default_block_size := false
  gflops := 0
  min_working_set_size := g_min_working_set_size
  min_accurate_time := g_min_accurate_time

/-- The three-argument constructor (lines 111-118): default blocking sizes. -/
def benchmark_t.mkDefault (pk pm pn : Nat)
    (g_min_working_set_size : Nat) (g_min_accurate_time : ℚ) : benchmark_t where
  compact_product_size := compact_size_triple pk pm pn
  compact_block_size := 0
  use_default_block_size := true
  gflops := 0
  min_working_set_size := g_min_working_set_size
  min_accurate_time := g_min_accurate_time

/-! ### The adaptive timing loop and matrix pool (`benchmark_t::run`, lines 149-225) -/

/-- `sizeof(Scalar)` for `MatrixXf`. -/
def sizeof_Scalar : Nat := 4

/-- Lines 166-170: combined byte size of the three operand matrices. -/
def combined_three_matrices_sizes (b : benchmark_t) : Nat :=
  let productsizes := size_triple_t.ofCompact b.compact_product_size
  sizeof_Scalar *
    (productsizes.k * productsizes.m +
     productsizes.k * productsizes.n +
     productsizes.m * productsizes.n)

/-- Line 175: `64 << 20`, "large enough that nobody has a cache bigger than that". -/
def unlikely_large_cache_size : Nat := 64 <<< 20

/-- Lines 177-178: the working-set size actually used: the per-trial override
if it is nonzero, else the large-cache constant. -/
def working_set_size (b : benchmark_t) : Nat :=
  if b.min_working_set_size ≠ 0 then b.min_working_set_size else unlikely_large_cache_size

/-- Lines 180-181: number of independent instances of the three operands. -/
def matrix_pool_size (b : benchmark_t) : Nat :=
  1 + working_set_size b / combined_three_matrices_sizes b

/-- Combined byte footprint of the whole pool (`matrix_pool_size` copies of the
three operands). -/
def pool_footprint (b : benchmark_t) : Nat :=
  matrix_pool_size b * combined_three_matrices_sizes b

/-- The timing loop of `benchmark_t::run` (lines 195-218), for a deterministic
kernel whose every invocation costs `cost` CPU seconds, so that a batch of
`iters_at_a_time` invocations shows an elapsed time of `iters_at_a_time * cost`.
The C++ loop is `while (true)`; `fuel` bounds the modelled unrolling and
`none` means the loop was still running when the fuel ran out.
Returns `(iters_at_a_time, time_per_iter)` at acceptance. -/
def run_loop (min_accurate_time cost : ℚ) : Nat → Nat → Option (Nat × ℚ)
  | 0, _ => none
  | fuel + 1, iters_at_a_time =>
    let timing : ℚ := iters_at_a_time * cost
    if timing ≥ min_accurate_time then some (iters_at_a_time, timing / iters_at_a_time)
    else run_loop min_accurate_time cost fuel (iters_at_a_time * 2)

/-- `benchmark_t::run` (lines 149-225): run the timing loop starting from one
iteration at a time, then store the throughput
`2e-9 * k * m * n / time_per_iter` in the `gflops` field. -/
def benchmark_t.run (b : benchmark_t) (cost : ℚ) (fuel : Nat) : Option benchmark_t :=
  match run_loop b.min_accurate_time cost fuel 1 with
  | none => none
  | some (_, time_per_iter) =>
    let productsizes := size_triple_t.ofCompact b.compact_product_size
    some { b with gflops :=
      (2 / 10 ^ 9 : ℚ) * productsizes.k * productsizes.m * productsizes.n / time_per_iter }

/-! ### The clock probe (`measure_clock_speed`, lines 293-316) -/

/-- `measure_clock_speed` (lines 293-316). The C++ function runs a fixed
`benchmark_t(128, 128, 128)` trial with `min_working_set_size = 1` and
`min_accurate_time = 0.1` eight times; `gflops i` is the throughput observed by
the `i`-th of those eight measurements (the external-world input). The
function sorts the eight values, sums the four middle-ranked ones
(`all_gflops[2] + ... + all_gflops[5]`) and multiplies by the arbitrary
constant `123.456`. -/
def measure_clock_speed (gflops : Nat → ℚ) : ℚ :=
  let all_gflops := (List.range 8).map gflops
  let sorted_gflops := all_gflops.insertionSort (· ≤ ·)
  let stable_estimate :=
    sorted_gflops.getD 2 0 + sorted_gflops.getD 3 0 + sorted_gflops.getD 4 0 +
      sorted_gflops.getD 5 0
  stable_estimate * (123456 / 1000)

/-! ### The result reducer (`operator<` lines 140-147, `run_benchmarks` lines 491-508) -/

/-- `operator<(benchmark_t, benchmark_t)` (lines 140-147): increasing product
size, then increasing block size, then decreasing gflops. -/
def benchmark_lt (b1 b2 : benchmark_t) : Prop :=
  b1.compact_product_size < b2.compact_product_size ∨
    (b1.compact_product_size = b2.compact_product_size ∧
      (b1.compact_block_size < b2.compact_block_size ∨
        (b1.compact_block_size = b2.compact_block_size ∧ b1.gflops > b2.gflops)))

instance benchmark_lt.decidableRel : DecidableRel benchmark_lt := fun b1 b2 => by
  unfold benchmark_lt
  infer_instance

/-- The non-strict order induced by `operator<`; `std::sort(begin, end)`
produces a permutation that is sorted (pairwise) w.r.t. this relation. -/
def benchmark_le (b1 b2 : benchmark_t) : Prop := ¬ benchmark_lt b2 b1

instance benchmark_le.decidableRel : DecidableRel benchmark_le := fun b1 b2 => by
  unfold benchmark_le
  infer_instance

/-- The distinct-configuration key of a trial: the (problem-size key,
block-size key) pair used by the reducer's deduplication test. -/
def config_key (b : benchmark_t) : Nat × Nat :=
  (b.compact_product_size, b.compact_block_size)

/-- Strict lexicographic order on configuration keys (verification
vocabulary for stating facts about the sorted trial list). -/
def pair_lt (p q : Nat × Nat) : Prop :=
  p.1 < q.1 ∨ (p.1 = q.1 ∧ p.2 < q.2)

/-- One iteration of the collection loop (lines 498-505): push `it` onto
`best_benchmarks` iff the list is empty or the last pushed trial has a
different (product size, block size) configuration. -/
def collect_step (best_benchmarks : List benchmark_t) (it : benchmark_t) : List benchmark_t :=
  match best_benchmarks.getLast? with
  | none => best_benchmarks ++ [it]
  | some back =>
    if back.compact_product_size ≠ it.compact_product_size ∨
       back.compact_block_size ≠ it.compact_block_size
    then best_benchmarks ++ [it]
    else best_benchmarks

/-- Recursive characterisation of the collection loop after its first push:
`back` is the trial most recently pushed. Used only in proofs, related to the
`foldl` of `collect_step` by `collect_best_eq`. -/
def collect_tail (back : benchmark_t) : List benchmark_t → List benchmark_t
  | [] => []
  | it :: rest =>
    if back.compact_product_size ≠ it.compact_product_size ∨
       back.compact_block_size ≠ it.compact_block_size
    then it :: collect_tail it rest
    else collect_tail back rest

/-- The result-reduction step of `run_benchmarks` (lines 491-508): sort by
`operator<`, then keep only the first trial of each distinct configuration. -/
def run_benchmarks_reduce (benchmarks : List benchmark_t) : List benchmark_t :=
  (benchmarks.insertionSort benchmark_le).foldl collect_step []

/-! ### The drift-aware scheduler (`try_run_some_benchmarks`, lines 343-467) -/

/-- Line 375: only 1% higher clock speeds are tolerated. -/
def tolerance_higher_clock_speed : ℚ := 101 / 100

/-- Line 395: clock speeds down to 98% of the best seen are tolerated. -/
def tolerance_lower_clock_speed : ℚ := 49 / 50

/-- The sleep-backoff loop (lines 406-431): while the probed clock speed is
below tolerance, give up fatally (`exit(1)`) once the next sleep duration
exceeds 300 s, otherwise sleep, re-probe, and double the sleep duration.
`probe` is the stream of `measure_clock_speed` results and `probe_ctr` the
index of the next unread one; `sleeps` accumulates the performed sleep
durations. Returns `.error (sleeps, probe_ctr)` for the fatal exit and
`.ok (sleeps, recovered_speed, probe_ctr)` on recovery. -/
def sleep_backoff (max_clock_speed : ℚ) (probe : Nat → ℚ)
    (current_clock_speed : ℚ) (seconds_to_sleep : Nat) (probe_ctr : Nat)
    (sleeps : List Nat) (hpos : 0 < seconds_to_sleep) :
    Except (List Nat × Nat) (List Nat × ℚ × Nat) :=
  if current_clock_speed < tolerance_lower_clock_speed * max_clock_speed then
    if h300 : seconds_to_sleep > 300 then
      .error (sleeps, probe_ctr)
    else
      sleep_backoff max_clock_speed probe (probe probe_ctr) (seconds_to_sleep * 2)
        (probe_ctr + 1) (sleeps ++ [seconds_to_sleep]) (by omega)
  else .ok (sleeps, current_clock_speed, probe_ctr)
termination_by 602 - seconds_to_sleep
decreasing_by
  omega

/-- The scheduler's environment: `real_time` is the stream of
`timer.getRealTime()` readings, `probe` the stream of `measure_clock_speed`
results, `run_cost` the per-invocation kernel cost seen by the `r`-th
`benchmarks[i].run()` call, and `run_fuel` the unrolling bound given to that
call's timing loop. -/
structure sched_env where
  real_time : Nat → ℚ
  probe : Nat → ℚ
  run_cost : Nat → ℚ
  run_fuel : Nat → Nat

/-- The mutable state of `try_run_some_benchmarks`: the trial list and the two
by-reference parameters (`first_benchmark_to_run`, `max_clock_speed`), the
loop-local `benchmark_index` and `time_last_clock_speed_measurement`, and the
read positions of the three oracle streams. -/
structure loop_state where
  benchmarks : List benchmark_t
  first_benchmark_to_run : Nat
  max_clock_speed : ℚ
  benchmark_index : Nat
  time_last_clock_speed_measurement : ℚ
  time_ctr : Nat
  probe_ctr : Nat
  run_ctr : Nat
deriving DecidableEq

/-- How one call of `try_run_some_benchmarks` ends: a `return` (restart, rerun
or completion), the fatal `exit(1)` of the backoff loop (with the sleeps
performed), or a failure to terminate within the modelled fuel. -/
inductive sched_outcome where
  | returned (st : loop_state)
  | fatal (st : loop_state) (sleeps : List Nat)
  | hung
deriving DecidableEq

/-- The clock-speed check block (lines 363-444): when at a calibration point
(all trials done, or more than 60 s of wall time since the last measurement),
probe the clock speed; on an upward anomaly (> 1.01 × best seen) raise the
baseline, reset the checkpoint to 0 and return; on a downward drift (< 0.98 ×
best seen) run the sleep backoff, then either die fatally or return with the
checkpoint unchanged so the caller reruns from it; otherwise advance the
checkpoint to the current index and continue (`Sum.inr`). The progress
messages written to `stderr` (and the variables feeding only them) have no
observable effect and are not modelled. -/
def calibration_step (env : sched_env) (time_now : ℚ) (st : loop_state) :
    sched_outcome ⊕ loop_state :=
  if st.benchmark_index = st.benchmarks.length ∨
     time_now > st.time_last_clock_speed_measurement + 60 then
    let current_clock_speed := env.probe st.probe_ctr
    let st2 := { st with time_last_clock_speed_measurement := time_now,
                         probe_ctr := st.probe_ctr + 1 }
    if current_clock_speed > tolerance_higher_clock_speed * st2.max_clock_speed then
      .inl (.returned { st2 with max_clock_speed := current_clock_speed,
                                 first_benchmark_to_run := 0 })
    else if current_clock_speed < tolerance_lower_clock_speed * st2.max_clock_speed then
      match sleep_backoff st2.max_clock_speed env.probe current_clock_speed 1 st2.probe_ctr
          [] (by omega) with
      | .error (sleeps, probe_ctr') =>
        .inl (.fatal { st2 with probe_ctr := probe_ctr' } sleeps)
      | .ok (_, _, probe_ctr') =>
        .inl (.returned { st2 with probe_ctr := probe_ctr' })
    else
      .inr { st2 with first_benchmark_to_run := st2.benchmark_index }
  else .inr st

/-- The scheduler loop of `try_run_some_benchmarks` (lines 359-466): read the
wall clock, run the calibration block, and — unless it returned — either
finish (all trials done, checkpoint set to the list length) or run the next
trial and advance. The C++ loop is `while (true)`; the explicit `fuel` only
bounds the modelled unrolling (`.hung` = not finished within the fuel). -/
def sched_loop (env : sched_env) : Nat → loop_state → sched_outcome
  | 0, _ => .hung
  | fuel + 1, st =>
    let time_now := env.real_time st.time_ctr
    match calibration_step env time_now { st with time_ctr := st.time_ctr + 1 } with
    | .inl outcome => outcome
    | .inr st2 =>
      if st2.benchmark_index = st2.benchmarks.length then
        .returned { st2 with first_benchmark_to_run := st2.benchmarks.length }
      else
        match st2.benchmarks[st2.benchmark_index]? with
        | none => .hung
        | some b =>
          match b.run (env.run_cost st2.run_ctr) (env.run_fuel st2.run_ctr) with
          | none => .hung
          | some b2 =>
            sched_loop env fuel
              { st2 with benchmarks := st2.benchmarks.set st2.benchmark_index b2,
                         benchmark_index := st2.benchmark_index + 1,
                         run_ctr := st2.run_ctr + 1 }

/-- `try_run_some_benchmarks` (lines 343-467): return immediately when the
checkpoint is already past the last trial, else enter the scheduler loop at
the checkpoint with `time_last_clock_speed_measurement = 0`. -/
def try_run_some_benchmarks (env : sched_env) (fuel : Nat)
    (benchmarks : List benchmark_t) (first_benchmark_to_run : Nat) (max_clock_speed : ℚ)
    (time_ctr probe_ctr run_ctr : Nat) : sched_outcome :=
  let st : loop_state :=
    { benchmarks := benchmarks, first_benchmark_to_run := first_benchmark_to_run,
      max_clock_speed := max_clock_speed, benchmark_index := first_benchmark_to_run,
      time_last_clock_speed_measurement := 0,
      time_ctr := time_ctr, probe_ctr := probe_ctr, run_ctr := run_ctr }
  if first_benchmark_to_run = benchmarks.length then .returned st
  else sched_loop env fuel st

/-! ## Helper lemmas -/

/-! ### Codec lemmas -/

lemma log2_pot_zero : log2_pot 0 = 0 := by
  simp [log2_pot]

/-- The loop computes the floor of the base-2 logarithm: the unique `l` with
`2^l ≤ x < 2^(l+1)`, for every positive `x` (power of two or not). -/
lemma log2_pot_spec : ∀ x : Nat, 1 ≤ x → 2 ^ log2_pot x ≤ x ∧ x < 2 ^ (log2_pot x + 1) := by
  intro x
  induction x using Nat.strong_induction_on with
  | _ x ih =>
    intro hx
    by_cases h : x / 2 = 0
    · have hx1 : x = 1 := by omega
      subst hx1
      simp [log2_pot]
    · have h2 : 2 ≤ x := by omega
      have hrec := ih (x / 2) (Nat.div_lt_self (by omega) (by omega)) (by omega)
      rw [log2_pot, if_neg h]
      rcases hrec with ⟨hlo, hhi⟩
      constructor
      · calc 2 ^ (log2_pot (x / 2) + 1) = 2 * 2 ^ (log2_pot (x / 2)) := by ring
        _ ≤ 2 * (x / 2) := by omega
        _ ≤ x := by omega
      · have : x / 2 + 1 ≤ 2 ^ (log2_pot (x / 2) + 1) := hhi
        calc x < 2 * (x / 2) + 2 := by omega
        _ ≤ 2 * 2 ^ (log2_pot (x / 2) + 1) := by omega
        _ = 2 ^ (log2_pot (x / 2) + 1 + 1) := by ring

/-- On an exact power of two, `log2_pot` recovers the exponent. -/
lemma log2_pot_pow (e : Nat) : log2_pot (2 ^ e) = e := by
  have h := log2_pot_spec (2 ^ e) (Nat.one_le_two_pow)
  rcases h with ⟨hlo, hhi⟩
  have h1 : log2_pot (2 ^ e) ≤ e := by
    by_contra hc
    have : 2 ^ (e + 1) ≤ 2 ^ (log2_pot (2 ^ e)) := Nat.pow_le_pow_right (by omega) (by omega)
    have : 2 ^ e < 2 ^ (e + 1) := Nat.pow_lt_pow_right (by omega) (by omega)
    omega
  have h2 : e ≤ log2_pot (2 ^ e) := by
    by_contra hc
    have : 2 ^ (log2_pot (2 ^ e) + 1) ≤ 2 ^ e := Nat.pow_le_pow_right (by omega) (by omega)
    omega
  omega

/-- Packing three 4-bit fields and extracting them back is lossless; proved by
exhaustive kernel evaluation over the 16×16×16 field values. -/
lemma pack_unpack_fields :
    ∀ a < 16, ∀ b < 16, ∀ c < 16,
      ((((a <<< 8) ||| (b <<< 4) ||| c) % 65536) &&& 0xf00) >>> 8 = a ∧
      ((((a <<< 8) ||| (b <<< 4) ||| c) % 65536) &&& 0x0f0) >>> 4 = b ∧
      ((((a <<< 8) ||| (b <<< 4) ||| c) % 65536) &&& 0x00f) >>> 0 = c := by
  decide

/-- The packed key of three 4-bit fields equals `a*256 + b*16 + c`. -/
lemma pack_val :
    ∀ a < 16, ∀ b < 16, ∀ c < 16,
      ((a <<< 8) ||| (b <<< 4) ||| c) % 65536 = a * 256 + b * 16 + c := by
  decide

/-- Decoding an encoded triple yields the powers of two of the `log2_pot`
values of the inputs (for inputs whose `log2_pot` fits the 4-bit fields). -/
lemma ofCompact_compact (k m n : Nat)
    (hk : log2_pot k ≤ 15) (hm : log2_pot m ≤ 15) (hn : log2_pot n ≤ 15) :
    size_triple_t.ofCompact (compact_size_triple k m n) =
      ⟨2 ^ log2_pot k, 2 ^ log2_pot m, 2 ^ log2_pot n⟩ := by
  obtain ⟨h1, h2, h3⟩ :=
    pack_unpack_fields (log2_pot k) (by omega) (log2_pot m) (by omega) (log2_pot n) (by omega)
  unfold size_triple_t.ofCompact compact_size_triple
  rw [h1, h2, h3]
  simp [Nat.shiftLeft_eq]

/-! ### Adaptive-timer lemmas -/

/-- Loop invariant for `run_loop`: starting from a positive iteration count
with enough fuel to reach the threshold, the loop accepts at some `N` whose
batch time clears the threshold, and — unless it accepted immediately — the
previous (half-sized) batch was below the threshold. -/
lemma run_loop_invariant (T C : ℚ) :
    ∀ (fuel iters : Nat), 0 < iters → T ≤ (iters * 2 ^ fuel : ℚ) * C →
      ∃ N : Nat, run_loop T C (fuel + 1) iters = some (N, (N * C) / N) ∧
        T ≤ (N : ℚ) * C ∧ (N = iters ∨ ((N / 2 : Nat) : ℚ) * C < T) := by
  intro fuel
  induction fuel with
  | zero =>
    intro iters hpos henough
    refine ⟨iters, ?_, ?_, Or.inl rfl⟩
    · rw [run_loop]
      rw [if_pos]
      simpa using henough
    · simpa using henough
  | succ fuel ih =>
    intro iters hpos henough
    by_cases hacc : (iters : ℚ) * C ≥ T
    · exact ⟨iters, by rw [run_loop, if_pos hacc], hacc, Or.inl rfl⟩
    · have hstep : T ≤ ((iters * 2 : Nat) * 2 ^ fuel : ℚ) * C := by
        push_cast at henough ⊢
        calc T ≤ (iters * 2 ^ (fuel + 1) : ℚ) * C := henough
        _ = ((iters * 2 : ℚ)) * 2 ^ fuel * C := by ring
      obtain ⟨N, hrun, hge, hprev⟩ := ih (iters * 2) (by omega) hstep
      refine ⟨N, ?_, hge, Or.inr ?_⟩
      · rw [run_loop, if_neg hacc]
        exact hrun
      · rcases hprev with h | h
        · subst h
          have : (iters * 2) / 2 = iters := by omega
          rw [this]
          exact lt_of_not_ge hacc
        · exact h

/-! ### Comparator lemmas (`operator<` and the induced sort order) -/

lemma benchmark_lt_asymm (a b : benchmark_t) :
    benchmark_lt a b → benchmark_lt b a → False := by
  unfold benchmark_lt
  rintro (h1 | ⟨e1, h1 | ⟨f1, g1⟩⟩) (h2 | ⟨e2, h2 | ⟨f2, g2⟩⟩)
  all_goals first | omega | linarith

/-- `operator<` is a strict weak order: a comparison against `a` can be
split through any third element `b`. -/
lemma benchmark_lt_or (a b c : benchmark_t) (h : benchmark_lt c a) :
    benchmark_lt c b ∨ benchmark_lt b a := by
  unfold benchmark_lt at h ⊢
  rcases Nat.lt_trichotomy c.compact_product_size b.compact_product_size with hp | hp | hp
  · exact Or.inl (Or.inl hp)
  · rcases h with h1 | ⟨he, h2⟩
    · exact Or.inr (Or.inl (by omega))
    · rcases Nat.lt_trichotomy c.compact_block_size b.compact_block_size with hb | hb | hb
      · exact Or.inl (Or.inr ⟨hp, Or.inl hb⟩)
      · rcases h2 with h3 | ⟨he2, h4⟩
        · exact Or.inr (Or.inr ⟨by omega, Or.inl (by omega)⟩)
        · rcases le_or_lt c.gflops b.gflops with hg | hg
          · exact Or.inr (Or.inr ⟨by omega, Or.inr ⟨by omega, by linarith⟩⟩)
          · exact Or.inl (Or.inr ⟨hp, Or.inr ⟨hb, hg⟩⟩)
      · rcases h2 with h3 | ⟨he2, h4⟩
        · exact Or.inr (Or.inr ⟨by omega, Or.inl (by omega)⟩)
        · exact Or.inr (Or.inr ⟨by omega, Or.inl (by omega)⟩)
  · rcases h with h1 | ⟨he, h2⟩
    · exact Or.inr (Or.inl (by omega))
    · exact Or.inr (Or.inl (by omega))

instance : IsTotal benchmark_t benchmark_le :=
  ⟨fun a b => by
    unfold benchmark_le
    by_contra hc
    push_neg at hc
    exact benchmark_lt_asymm b a hc.1 hc.2⟩

instance : IsTrans benchmark_t benchmark_le :=
  ⟨fun a b c hab hbc => by
    unfold benchmark_le at *
    intro hca
    rcases benchmark_lt_or a b c hca with h | h
    · exact hbc h
    · exact hab h⟩

/-- Unpacking the non-strict order: keys ascend, and within equal keys the
gflops descend. -/
lemma benchmark_le_key (a b : benchmark_t) (h : benchmark_le a b) :
    a.compact_product_size < b.compact_product_size ∨
      (a.compact_product_size = b.compact_product_size ∧
        (a.compact_block_size < b.compact_block_size ∨
          (a.compact_block_size = b.compact_block_size ∧ b.gflops ≤ a.gflops))) := by
  unfold benchmark_le benchmark_lt at h
  push_neg at h
  obtain ⟨h1, h2⟩ := h
  rcases lt_or_eq_of_le h1 with hlt | he
  · exact Or.inl hlt
  · obtain ⟨h3, h4⟩ := h2 he.symm
    rcases lt_or_eq_of_le h3 with hbl | hbe
    · exact Or.inr ⟨he, Or.inl hbl⟩
    · exact Or.inr ⟨he, Or.inr ⟨hbe, h4 hbe.symm⟩⟩

lemma benchmark_le_config (a b : benchmark_t) (h : benchmark_le a b) :
    pair_lt (config_key a) (config_key b) ∨ config_key a = config_key b := by
  rcases benchmark_le_key a b h with h1 | ⟨he, h2 | ⟨hbe, _⟩⟩
  · exact Or.inl (Or.inl h1)
  · exact Or.inl (Or.inr ⟨he, h2⟩)
  · right
    simp [config_key, Prod.ext_iff]
    omega

lemma benchmark_le_gflops (a b : benchmark_t) (h : benchmark_le a b)
    (hk : config_key a = config_key b) : b.gflops ≤ a.gflops := by
  simp [config_key, Prod.ext_iff] at hk
  rcases benchmark_le_key a b h with h1 | ⟨_, h2 | ⟨_, h3⟩⟩
  · omega
  · omega
  · exact h3

lemma pair_lt_trans {p q r : Nat × Nat} (h1 : pair_lt p q) (h2 : pair_lt q r) :
    pair_lt p r := by
  unfold pair_lt at *
  omega

lemma pair_lt_ne {p q : Nat × Nat} (h : pair_lt p q) : p ≠ q := by
  unfold pair_lt at h
  intro he
  subst he
  omega

/-! ### Collection-loop lemmas -/

lemma collect_tail_cons (back it : benchmark_t) (rest : List benchmark_t) :
    collect_tail back (it :: rest) =
      if back.compact_product_size ≠ it.compact_product_size ∨
         back.compact_block_size ≠ it.compact_block_size
      then it :: collect_tail it rest
      else collect_tail back rest := rfl

/-- The `foldl` of `collect_step` over a nonempty accumulator ending in `back`
is `collect_tail back`. -/
lemma foldl_collect_step :
    ∀ (t : List benchmark_t) (acc : List benchmark_t) (back : benchmark_t),
      List.foldl collect_step (acc ++ [back]) t = acc ++ back :: collect_tail back t := by
  intro t
  induction t with
  | nil =>
    intro acc back
    simp [collect_tail]
  | cons it rest ih =>
    intro acc back
    rw [List.foldl_cons]
    have hlast : (acc ++ [back]).getLast? = some back := List.getLast?_concat _
    by_cases h : back.compact_product_size ≠ it.compact_product_size ∨
        back.compact_block_size ≠ it.compact_block_size
    · have hstep : collect_step (acc ++ [back]) it = (acc ++ [back]) ++ [it] := by
        unfold collect_step
        simp only [hlast]
        exact if_pos h
      rw [hstep, ih (acc ++ [back]) it, collect_tail_cons, if_pos h]
      simp
    · have hstep : collect_step (acc ++ [back]) it = acc ++ [back] := by
        unfold collect_step
        simp only [hlast]
        exact if_neg h
      rw [hstep, ih acc back, collect_tail_cons, if_neg h]

/-- The collection loop (lines 497-505) on a nonempty list: the head is
always pushed, the rest is `collect_tail`. -/
lemma collect_best_cons (b : benchmark_t) (t : List benchmark_t) :
    List.foldl collect_step [] (b :: t) = b :: collect_tail b t := by
  rw [List.foldl_cons]
  have hstep : collect_step [] b = [] ++ [b] := rfl
  rw [hstep, foldl_collect_step t [] b]
  simp

lemma collect_tail_subset :
    ∀ (t : List benchmark_t) (back : benchmark_t), collect_tail back t ⊆ t := by
  intro t
  induction t with
  | nil =>
    intro back
    simp [collect_tail]
  | cons it rest ih =>
    intro back
    rw [collect_tail_cons]
    by_cases h : back.compact_product_size ≠ it.compact_product_size ∨
        back.compact_block_size ≠ it.compact_block_size
    · rw [if_pos h]
      exact List.cons_subset_cons it (ih it)
    · rw [if_neg h]
      exact (ih back).trans (List.subset_cons_self _ _)

/-- On a sorted list, the kept trials have strictly increasing configuration
keys (so each distinct configuration is kept at most once). -/
lemma collect_tail_pairwise :
    ∀ (t : List benchmark_t) (back : benchmark_t), List.Sorted benchmark_le (back :: t) →
      List.Pairwise (fun x y => pair_lt (config_key x) (config_key y))
        (back :: collect_tail back t) := by
  intro t
  induction t with
  | nil =>
    intro back _
    simp [collect_tail]
  | cons it rest ih =>
    intro back hsorted
    rw [List.sorted_cons] at hsorted
    obtain ⟨hball, hsrest⟩ := hsorted
    rw [collect_tail_cons]
    by_cases h : back.compact_product_size ≠ it.compact_product_size ∨
        back.compact_block_size ≠ it.compact_block_size
    · rw [if_pos h]
      have hit := ih it hsrest
      have hbackit : pair_lt (config_key back) (config_key it) := by
        rcases benchmark_le_config back it (hball it (by simp)) with hlt | heq
        · exact hlt
        · exfalso
          have h2 : back.compact_product_size = it.compact_product_size ∧
              back.compact_block_size = it.compact_block_size := by
            simpa [config_key, Prod.ext_iff] using heq
          tauto
      rw [List.pairwise_cons]
      refine ⟨?_, hit⟩
      intro y hy
      rcases List.mem_cons.mp hy with heq | hy2
      · rw [heq]
        exact hbackit
      · exact pair_lt_trans hbackit ((List.pairwise_cons.mp hit).1 y hy2)
    · rw [if_neg h]
      apply ih back
      rw [List.sorted_cons]
      exact ⟨fun x hx => hball x (List.mem_cons_of_mem _ hx), hsrest.of_cons⟩

/-- On a sorted list, every trial is dominated by a kept trial of the same
configuration key with at least its gflops. -/
lemma collect_tail_dominates :
    ∀ (t : List benchmark_t) (back : benchmark_t), List.Sorted benchmark_le (back :: t) →
      ∀ y ∈ back :: t, ∃ z ∈ back :: collect_tail back t,
        config_key z = config_key y ∧ y.gflops ≤ z.gflops := by
  intro t
  induction t with
  | nil =>
    intro back _ y hy
    have heq : y = back := by simpa using hy
    subst heq
    exact ⟨y, by simp, rfl, le_refl _⟩
  | cons it rest ih =>
    intro back hsorted y hy
    rw [List.sorted_cons] at hsorted
    obtain ⟨hball, hsrest⟩ := hsorted
    have hsback_rest : List.Sorted benchmark_le (back :: rest) := by
      rw [List.sorted_cons]
      exact ⟨fun x hx => hball x (List.mem_cons_of_mem _ hx), hsrest.of_cons⟩
    rw [collect_tail_cons]
    by_cases h : back.compact_product_size ≠ it.compact_product_size ∨
        back.compact_block_size ≠ it.compact_block_size
    · rw [if_pos h]
      rcases List.mem_cons.mp hy with heq | hy2
      · subst heq
        exact ⟨y, by simp, rfl, le_refl _⟩
      · obtain ⟨z, hz, hzk, hzg⟩ := ih it hsrest y hy2
        exact ⟨z, List.mem_cons_of_mem _ hz, hzk, hzg⟩
    · rw [if_neg h]
      have hkey : config_key back = config_key it := by
        push_neg at h
        simp only [config_key, Prod.ext_iff]
        exact ⟨h.1, h.2⟩
      rcases List.mem_cons.mp hy with heq | hy2
      · subst heq
        exact ⟨y, by simp, rfl, le_refl _⟩
      · rcases List.mem_cons.mp hy2 with heq2 | hy3
        · refine ⟨back, by simp, ?_, ?_⟩
          · rw [heq2]
            exact hkey
          · rw [heq2]
            exact benchmark_le_gflops back it (hball it (by simp)) hkey
        · exact ih back hsback_rest y (List.mem_cons_of_mem _ hy3)

/-- The reducer's guarantee: for every configuration present in the input,
the reduced list keeps exactly one trial of that configuration, it comes from
the input, and its gflops is the maximum the input observed for that
configuration. -/
lemma run_benchmarks_reduce_spec (l : List benchmark_t) (p : Nat × Nat)
    (hp : ∃ b ∈ l, config_key b = p) :
    ∃ b, b ∈ run_benchmarks_reduce l ∧ b ∈ l ∧ config_key b = p ∧
      (∀ b2 ∈ run_benchmarks_reduce l, config_key b2 = p → b2 = b) ∧
      (∀ b2 ∈ l, config_key b2 = p → b2.gflops ≤ b.gflops) := by
  have hperm : List.Perm (l.insertionSort benchmark_le) l :=
    List.perm_insertionSort benchmark_le l
  have hsorted : List.Sorted benchmark_le (l.insertionSort benchmark_le) :=
    List.sorted_insertionSort benchmark_le l
  obtain ⟨b0, hb0l, hb0k⟩ := hp
  have hb0L : b0 ∈ l.insertionSort benchmark_le := hperm.mem_iff.mpr hb0l
  cases hL : l.insertionSort benchmark_le with
  | nil =>
    rw [hL] at hb0L
    simp at hb0L
  | cons back t =>
    rw [hL] at hb0L hsorted hperm
    have hred : run_benchmarks_reduce l = back :: collect_tail back t := by
      unfold run_benchmarks_reduce
      rw [hL]
      exact collect_best_cons back t
    obtain ⟨z, hz, hzk, hzg⟩ := collect_tail_dominates t back hsorted b0 hb0L
    have hzk2 : config_key z = p := by rw [hzk, hb0k]
    have hout_sub : back :: collect_tail back t ⊆ back :: t :=
      List.cons_subset_cons back (collect_tail_subset t back)
    have hpw := collect_tail_pairwise t back hsorted
    have huniq : ∀ b2 ∈ back :: collect_tail back t, config_key b2 = p → b2 = z := by
      intro b2 hb2 hb2k
      by_contra hne
      have hsymm : Symmetric (fun x y : benchmark_t => config_key x ≠ config_key y) :=
        fun x y hxy hyx => hxy hyx.symm
      have hpw2 : List.Pairwise (fun x y : benchmark_t => config_key x ≠ config_key y)
          (back :: collect_tail back t) :=
        hpw.imp fun hxy => pair_lt_ne hxy
      exact (hpw2.forall hsymm hb2 hz hne) (by rw [hb2k, hzk2])
    refine ⟨z, ?_, ?_, hzk2, ?_, ?_⟩
    · rw [hred]
      exact hz
    · exact hperm.mem_iff.mp (hout_sub hz)
    · intro b2 hb2 hb2k
      rw [hred] at hb2
      exact huniq b2 hb2 hb2k
    · intro b2 hb2 hb2k
      have hb2L : b2 ∈ back :: t := hperm.mem_iff.mpr hb2
      obtain ⟨z2, hz2, hz2k, hz2g⟩ := collect_tail_dominates t back hsorted b2 hb2L
      have hz2z : z2 = z := huniq z2 hz2 (by rw [hz2k, hb2k])
      rw [← hz2z]
      exact hz2g

/-! ### Clock-probe lemmas: sorting preserves pointwise domination -/

lemma forall₂_map_map {α : Type} {r : ℚ → ℚ → Prop} (f g : α → ℚ) :
    ∀ l : List α, (∀ x ∈ l, r (f x) (g x)) → List.Forall₂ r (l.map f) (l.map g) := by
  intro l
  induction l with
  | nil => intro _; exact .nil
  | cons x t ih =>
    intro h
    exact .cons (h x (by simp)) (ih fun y hy => h y (by simp [hy]))

lemma forall₂_getD {r : ℚ → ℚ → Prop} :
    ∀ (s1 s2 : List ℚ), List.Forall₂ r s1 s2 →
      ∀ i, i < s1.length → r (s1.getD i 0) (s2.getD i 0) := by
  intro s1 s2 h
  induction h with
  | nil =>
    intro i hi
    simp at hi
  | @cons a b t1 t2 hab h2 ih =>
    intro i hi
    cases i with
    | zero => simpa using hab
    | succ j =>
      simp only [List.getD_cons_succ]
      exact ih j (by simpa using hi)

lemma oi_mono_le_right :
    ∀ (t1 t2 : List ℚ) (x b : ℚ), List.Forall₂ (· ≤ ·) t1 t2 → x ≤ b →
      (∀ z ∈ t1, x ≤ z) → List.Sorted (· ≤ ·) t1 →
      List.Forall₂ (· ≤ ·) (x :: t1) (List.orderedInsert (· ≤ ·) b t2) := by
  intro t1
  induction t1 with
  | nil =>
    intro t2 x b hf hxb _ _
    cases hf
    simp only [List.orderedInsert]
    exact .cons hxb .nil
  | cons u t1' ih =>
    intro t2 x b hf hxb hxall hsorted
    cases hf with
    | @cons _ v _ t2' huv hf' =>
      by_cases hbv : b ≤ v
      · simp only [List.orderedInsert]
        rw [if_pos hbv]
        exact .cons hxb (.cons huv hf')
      · simp only [List.orderedInsert]
        rw [if_neg hbv]
        refine .cons (le_trans (hxall u (by simp)) huv) ?_
        refine ih t2' u b hf' (le_trans huv (le_of_not_le hbv)) ?_ hsorted.of_cons
        intro z hz
        exact (List.sorted_cons.mp hsorted).1 z hz

lemma oi_mono_le_left :
    ∀ (t1 t2 : List ℚ) (a y : ℚ), List.Forall₂ (· ≤ ·) t1 t2 → a ≤ y →
      (∀ v ∈ t2, a ≤ v) →
      List.Forall₂ (· ≤ ·) (List.orderedInsert (· ≤ ·) a t1) (y :: t2) := by
  intro t1
  induction t1 with
  | nil =>
    intro t2 a y hf hay _
    cases hf
    simp only [List.orderedInsert]
    exact .cons hay .nil
  | cons u t1' ih =>
    intro t2 a y hf hay hvall
    cases hf with
    | @cons _ v _ t2' huv hf' =>
      by_cases hau : a ≤ u
      · simp only [List.orderedInsert]
        rw [if_pos hau]
        exact .cons hay (.cons huv hf')
      · simp only [List.orderedInsert]
        rw [if_neg hau]
        refine .cons (le_trans (le_of_not_le hau) hay) ?_
        exact ih t2' a v hf' (hvall v (by simp)) (fun w hw => hvall w (by simp [hw]))

/-- Inserting dominated elements into pointwise-dominated sorted lists keeps
the pointwise domination. -/
lemma oi_mono_le :
    ∀ (s1 s2 : List ℚ) (a b : ℚ), List.Forall₂ (· ≤ ·) s1 s2 → a ≤ b →
      List.Sorted (· ≤ ·) s1 → List.Sorted (· ≤ ·) s2 →
      List.Forall₂ (· ≤ ·) (List.orderedInsert (· ≤ ·) a s1)
        (List.orderedInsert (· ≤ ·) b s2) := by
  intro s1
  induction s1 with
  | nil =>
    intro s2 a b hf hab _ _
    cases hf
    simp only [List.orderedInsert]
    exact .cons hab .nil
  | cons x t1 ih =>
    intro s2 a b hf hab hs1 hs2
    cases hf with
    | @cons _ y _ t2 hxy hf' =>
      by_cases hax : a ≤ x <;> by_cases hby : b ≤ y
      · simp only [List.orderedInsert]
        rw [if_pos hax, if_pos hby]
        exact .cons hab (.cons hxy hf')
      · simp only [List.orderedInsert]
        rw [if_pos hax, if_neg hby]
        refine .cons (le_trans hax hxy) ?_
        refine oi_mono_le_right t1 t2 x b hf' (le_trans hxy (le_of_not_le hby)) ?_ hs1.of_cons
        intro z hz
        exact (List.sorted_cons.mp hs1).1 z hz
      · simp only [List.orderedInsert]
        rw [if_neg hax, if_pos hby]
        refine .cons (le_trans (le_of_not_le hax) hab) ?_
        refine oi_mono_le_left t1 t2 a y hf' (le_trans hab hby) ?_
        intro v hv
        exact le_trans (le_trans hab hby) ((List.sorted_cons.mp hs2).1 v hv)
      · simp only [List.orderedInsert]
        rw [if_neg hax, if_neg hby]
        exact .cons hxy (ih t2 a b hf' hab hs1.of_cons hs2.of_cons)

lemma insertionSort_mono_le (l1 l2 : List ℚ) (hf : List.Forall₂ (· ≤ ·) l1 l2) :
    List.Forall₂ (· ≤ ·) (l1.insertionSort (· ≤ ·)) (l2.insertionSort (· ≤ ·)) := by
  induction hf with
  | nil => exact .nil
  | @cons a b t1 t2 hab hf' ih =>
    simp only [List.insertionSort]
    exact oi_mono_le _ _ _ _ ih hab
      (List.sorted_insertionSort _ _) (List.sorted_insertionSort _ _)

lemma oi_mono_lt_right :
    ∀ (t1 t2 : List ℚ) (x b : ℚ), List.Forall₂ (· < ·) t1 t2 → x < b →
      (∀ z ∈ t1, x ≤ z) → List.Sorted (· ≤ ·) t1 →
      List.Forall₂ (· < ·) (x :: t1) (List.orderedInsert (· ≤ ·) b t2) := by
  intro t1
  induction t1 with
  | nil =>
    intro t2 x b hf hxb _ _
    cases hf
    simp only [List.orderedInsert]
    exact .cons hxb .nil
  | cons u t1' ih =>
    intro t2 x b hf hxb hxall hsorted
    cases hf with
    | @cons _ v _ t2' huv hf' =>
      by_cases hbv : b ≤ v
      · simp only [List.orderedInsert]
        rw [if_pos hbv]
        exact .cons hxb (.cons huv hf')
      · simp only [List.orderedInsert]
        rw [if_neg hbv]
        refine .cons (lt_of_le_of_lt (hxall u (by simp)) huv) ?_
        refine ih t2' u b hf' (huv.trans (lt_of_not_le hbv)) ?_ hsorted.of_cons
        intro z hz
        exact (List.sorted_cons.mp hsorted).1 z hz

lemma oi_mono_lt_left :
    ∀ (t1 t2 : List ℚ) (a y : ℚ), List.Forall₂ (· < ·) t1 t2 → a < y →
      (∀ v ∈ t2, a < v) →
      List.Forall₂ (· < ·) (List.orderedInsert (· ≤ ·) a t1) (y :: t2) := by
  intro t1
  induction t1 with
  | nil =>
    intro t2 a y hf hay _
    cases hf
    simp only [List.orderedInsert]
    exact .cons hay .nil
  | cons u t1' ih =>
    intro t2 a y hf hay hvall
    cases hf with
    | @cons _ v _ t2' huv hf' =>
      by_cases hau : a ≤ u
      · simp only [List.orderedInsert]
        rw [if_pos hau]
        exact .cons hay (.cons huv hf')
      · simp only [List.orderedInsert]
        rw [if_neg hau]
        refine .cons ((lt_of_not_le hau).trans hay) ?_
        exact ih t2' a v hf' (hvall v (by simp)) (fun w hw => hvall w (by simp [hw]))

lemma oi_mono_lt :
    ∀ (s1 s2 : List ℚ) (a b : ℚ), List.Forall₂ (· < ·) s1 s2 → a < b →
      List.Sorted (· ≤ ·) s1 → List.Sorted (· ≤ ·) s2 →
      List.Forall₂ (· < ·) (List.orderedInsert (· ≤ ·) a s1)
        (List.orderedInsert (· ≤ ·) b s2) := by
  intro s1
  induction s1 with
  | nil =>
    intro s2 a b hf hab _ _
    cases hf
    simp only [List.orderedInsert]
    exact .cons hab .nil
  | cons x t1 ih =>
    intro s2 a b hf hab hs1 hs2
    cases hf with
    | @cons _ y _ t2 hxy hf' =>
      by_cases hax : a ≤ x <;> by_cases hby : b ≤ y
      · simp only [List.orderedInsert]
        rw [if_pos hax, if_pos hby]
        exact .cons hab (.cons hxy hf')
      · simp only [List.orderedInsert]
        rw [if_pos hax, if_neg hby]
        refine .cons (lt_of_le_of_lt hax hxy) ?_
        refine oi_mono_lt_right t1 t2 x b hf' (hxy.trans (lt_of_not_le hby)) ?_ hs1.of_cons
        intro z hz
        exact (List.sorted_cons.mp hs1).1 z hz
      · simp only [List.orderedInsert]
        rw [if_neg hax, if_pos hby]
        refine .cons ((lt_of_not_le hax).trans hab) ?_
        refine oi_mono_lt_left t1 t2 a y hf' (hab.trans_le hby) ?_
        intro v hv
        exact lt_of_lt_of_le (hab.trans_le hby) ((List.sorted_cons.mp hs2).1 v hv)
      · simp only [List.orderedInsert]
        rw [if_neg hax, if_neg hby]
        exact .cons hxy (ih t2 a b hf' hab hs1.of_cons hs2.of_cons)

lemma insertionSort_mono_lt (l1 l2 : List ℚ) (hf : List.Forall₂ (· < ·) l1 l2) :
    List.Forall₂ (· < ·) (l1.insertionSort (· ≤ ·)) (l2.insertionSort (· ≤ ·)) := by
  induction hf with
  | nil => exact .nil
  | @cons a b t1 t2 hab hf' ih =>
    simp only [List.insertionSort]
    exact oi_mono_lt _ _ _ _ ih hab
      (List.sorted_insertionSort _ _) (List.sorted_insertionSort _ _)

/-! ### Pool-size lemmas -/

lemma combined_three_matrices_sizes_pos (b : benchmark_t) :
    0 < combined_three_matrices_sizes b := by
  simp only [combined_three_matrices_sizes, size_triple_t.ofCompact, sizeof_Scalar,
    Nat.one_shiftLeft]
  positivity

/-- The pool footprint always covers the selected working-set size (the
override when nonzero, else the large-cache constant). -/
lemma pool_footprint_ge (b : benchmark_t) : working_set_size b ≤ pool_footprint b := by
  have hc := combined_three_matrices_sizes_pos b
  have h2 : working_set_size b % combined_three_matrices_sizes b <
      combined_three_matrices_sizes b := Nat.mod_lt _ hc
  have h3 : pool_footprint b =
      combined_three_matrices_sizes b +
        combined_three_matrices_sizes b *
          (working_set_size b / combined_three_matrices_sizes b) := by
    unfold pool_footprint matrix_pool_size
    ring
  rw [h3]
  calc working_set_size b
      = combined_three_matrices_sizes b *
          (working_set_size b / combined_three_matrices_sizes b) +
        working_set_size b % combined_three_matrices_sizes b :=
        (Nat.div_add_mod _ _).symm
    _ ≤ combined_three_matrices_sizes b *
          (working_set_size b / combined_three_matrices_sizes b) +
        combined_three_matrices_sizes b := Nat.add_le_add_left h2.le _
    _ = combined_three_matrices_sizes b +
        combined_three_matrices_sizes b *
          (working_set_size b / combined_three_matrices_sizes b) := by ring

/-! ### Run-frame lemma -/

/-- `benchmark_t::run` writes only the `gflops` field. -/
lemma benchmark_run_frame (b : benchmark_t) (cost : ℚ) (fuel : Nat) (b2 : benchmark_t)
    (h : b.run cost fuel = some b2) :
    b2.compact_product_size = b.compact_product_size ∧
    b2.compact_block_size = b.compact_block_size ∧
    b2.use_default_block_size = b.use_default_block_size ∧
    b2.min_working_set_size = b.min_working_set_size ∧
    b2.min_accurate_time = b.min_accurate_time := by
  unfold benchmark_t.run at h
  cases hr : run_loop b.min_accurate_time cost fuel 1 with
  | none =>
    rw [hr] at h
    simp at h
  | some pr =>
    rw [hr] at h
    obtain ⟨N, tpi⟩ := pr
    simp only [Option.some.injEq] at h
    rw [← h]
    exact ⟨rfl, rfl, rfl, rfl, rfl⟩

/-! ### Scheduler lemmas -/

/-- The upward branch of the calibration block: a probe more than 1% above
the best seen speed raises the baseline, resets the checkpoint to 0 and makes
the whole call return, leaving the trial list untouched. -/
lemma calibration_step_upward (env : sched_env) (time_now : ℚ) (st : loop_state)
    (hcal : st.benchmark_index = st.benchmarks.length ∨
            time_now > st.time_last_clock_speed_measurement + 60)
    (hup : env.probe st.probe_ctr > tolerance_higher_clock_speed * st.max_clock_speed) :
    calibration_step env time_now st =
      .inl (.returned { st with time_last_clock_speed_measurement := time_now,
                                probe_ctr := st.probe_ctr + 1,
                                max_clock_speed := env.probe st.probe_ctr,
                                first_benchmark_to_run := 0 }) := by
  unfold calibration_step
  rw [if_pos hcal]
  dsimp only
  rw [if_pos hup]

/-- One unfolding of the scheduler loop at positive fuel (plain `rfl`
restatement, used to drive concrete evaluations). -/
lemma sched_loop_succ (env : sched_env) (fuel : Nat) (st : loop_state) :
    sched_loop env (fuel + 1) st =
      match calibration_step env (env.real_time st.time_ctr)
          { st with time_ctr := st.time_ctr + 1 } with
      | .inl outcome => outcome
      | .inr st2 =>
        if st2.benchmark_index = st2.benchmarks.length then
          .returned { st2 with first_benchmark_to_run := st2.benchmarks.length }
        else
          match st2.benchmarks[st2.benchmark_index]? with
          | none => .hung
          | some b =>
            match b.run (env.run_cost st2.run_ctr) (env.run_fuel st2.run_ctr) with
            | none => .hung
            | some b2 =>
              sched_loop env fuel
                { st2 with benchmarks := st2.benchmarks.set st2.benchmark_index b2,
                           benchmark_index := st2.benchmark_index + 1,
                           run_ctr := st2.run_ctr + 1 } := rfl

/-! ## Claim theorems -/

/-- C1: the Result Reducer sorts the finished trial list by ascending
problem-size key, then ascending block-size key, then descending throughput,
and keeps exactly the first trial of each distinct (problem-size key,
block-size key) pair, so the reduced list contains, for every distinct
configuration pair present in the input, exactly one trial, and it has the
maximum throughput observed for that pair; in particular the input
`[(key=5,block=5,tp=1), (key=5,block=5,tp=3), (key=5,block=6,tp=2)]`
reduces to `[(key=5,block=5,tp=3), (key=5,block=6,tp=2)]`. -/
theorem C1_result_reducer :
    (∀ (l : List benchmark_t) (p : Nat × Nat), (∃ b ∈ l, config_key b = p) →
      ∃ b, b ∈ run_benchmarks_reduce l ∧ b ∈ l ∧ config_key b = p ∧
        (∀ b2 ∈ run_benchmarks_reduce l, config_key b2 = p → b2 = b) ∧
        (∀ b2 ∈ l, config_key b2 = p → b2.gflops ≤ b.gflops)) ∧
    run_benchmarks_reduce
        [⟨5, 5, false, 1, 0, 0⟩, ⟨5, 5, false, 3, 0, 0⟩, ⟨5, 6, false, 2, 0, 0⟩] =
      [⟨5, 5, false, 3, 0, 0⟩, ⟨5, 6, false, 2, 0, 0⟩] :=
  ⟨run_benchmarks_reduce_spec, by decide⟩

/-- C1 witness: the reducer guarantee instantiated on the spec's example list
at configuration (5, 5). -/
theorem C1_result_reducer_witness :
    (∃ b ∈ [(⟨5, 5, false, 1, 0, 0⟩ : benchmark_t), ⟨5, 5, false, 3, 0, 0⟩,
        ⟨5, 6, false, 2, 0, 0⟩], config_key b = (5, 5)) ∧
    ∃ b, b ∈ run_benchmarks_reduce
          [(⟨5, 5, false, 1, 0, 0⟩ : benchmark_t), ⟨5, 5, false, 3, 0, 0⟩,
            ⟨5, 6, false, 2, 0, 0⟩] ∧
      b ∈ [(⟨5, 5, false, 1, 0, 0⟩ : benchmark_t), ⟨5, 5, false, 3, 0, 0⟩,
            ⟨5, 6, false, 2, 0, 0⟩] ∧
      config_key b = (5, 5) ∧
      (∀ b2 ∈ run_benchmarks_reduce
          [(⟨5, 5, false, 1, 0, 0⟩ : benchmark_t), ⟨5, 5, false, 3, 0, 0⟩,
            ⟨5, 6, false, 2, 0, 0⟩], config_key b2 = (5, 5) → b2 = b) ∧
      (∀ b2 ∈ [(⟨5, 5, false, 1, 0, 0⟩ : benchmark_t), ⟨5, 5, false, 3, 0, 0⟩,
            ⟨5, 6, false, 2, 0, 0⟩], config_key b2 = (5, 5) → b2.gflops ≤ b.gflops) :=
  ⟨by decide, C1_result_reducer.1
    [⟨5, 5, false, 1, 0, 0⟩, ⟨5, 5, false, 3, 0, 0⟩, ⟨5, 6, false, 2, 0, 0⟩]
    (5, 5) (by decide)⟩

/-- C2: for a deterministic kernel of fixed per-invocation cost `C > 0` and
any minimum-reliable-duration threshold `T > 0`, the adaptive timing loop
(started at one iteration, doubling while the batch time is below `T`)
accepts an iteration count `N` with `N * C ≥ T` and `(N / 2) * C < T`
(`N / 2` in integer division, so acceptance at `N = 1` is covered), and the
reported per-iteration time is the batch's elapsed time divided by `N`. -/
theorem C2_adaptive_timer (C T : ℚ) (hC : 0 < C) (hT : 0 < T) :
    ∃ fuel N : Nat, run_loop T C fuel 1 = some (N, (N * C) / N) ∧
      T ≤ (N : ℚ) * C ∧ ((N / 2 : Nat) : ℚ) * C < T := by
  obtain ⟨n, hn⟩ := exists_nat_gt (T / C)
  have hpow : (n : ℚ) ≤ 2 ^ n := by
    exact_mod_cast (Nat.lt_two_pow n).le
  have henough : T ≤ ((1 : Nat) : ℚ) * 2 ^ n * C := by
    have h1 : T < (n : ℚ) * C := (div_lt_iff₀ hC).mp hn
    have h2 : (n : ℚ) * C ≤ (2 ^ n : ℚ) * C :=
      mul_le_mul_of_nonneg_right hpow hC.le
    push_cast
    linarith
  obtain ⟨N, hrun, hge, hprev⟩ := run_loop_invariant T C n 1 Nat.one_pos henough
  refine ⟨n + 1, N, hrun, hge, ?_⟩
  rcases hprev with rfl | h
  · norm_num
    exact hT
  · exact h

/-- C2 witness: cost 1/3 and threshold 1. -/
theorem C2_adaptive_timer_witness :
    (0 < (1/3 : ℚ)) ∧ (0 < (1 : ℚ)) ∧
    ∃ fuel N : Nat, run_loop 1 (1/3) fuel 1 = some (N, ((N : ℚ) * (1/3)) / (N : ℚ)) ∧
      (1:ℚ) ≤ (N : ℚ) * (1/3) ∧ ((N / 2 : Nat) : ℚ) * (1/3) < 1 :=
  ⟨by norm_num, by norm_num, C2_adaptive_timer (1/3) 1 (by norm_num) (by norm_num)⟩

/-- C3: for every size triple whose components are powers of two with
exponents at most 15, decoding the encoded 12-bit key recovers exactly the
triple. -/
theorem C3_codec_roundtrip (ek em en : Nat) (hk : ek ≤ 15) (hm : em ≤ 15) (hn : en ≤ 15) :
    size_triple_t.ofCompact (compact_size_triple (2 ^ ek) (2 ^ em) (2 ^ en)) =
      ⟨2 ^ ek, 2 ^ em, 2 ^ en⟩ := by
  rw [ofCompact_compact (2 ^ ek) (2 ^ em) (2 ^ en)
      (by rw [log2_pot_pow]; exact hk)
      (by rw [log2_pot_pow]; exact hm)
      (by rw [log2_pot_pow]; exact hn)]
  rw [log2_pot_pow, log2_pot_pow, log2_pot_pow]

/-- C3 witness: the triple (2^3, 2^0, 2^15). -/
theorem C3_codec_roundtrip_witness :
    (3 ≤ 15 ∧ 0 ≤ 15 ∧ 15 ≤ 15) ∧
    size_triple_t.ofCompact (compact_size_triple (2 ^ 3) (2 ^ 0) (2 ^ 15)) =
      ⟨2 ^ 3, 2 ^ 0, 2 ^ 15⟩ :=
  ⟨⟨by norm_num, by norm_num, by norm_num⟩,
    C3_codec_roundtrip 3 0 15 (by norm_num) (by norm_num) (by norm_num)⟩

/-- C4: for valid size triples (powers of two, exponents at most 15),
comparing the encoded keys as raw unsigned integers is exactly the
lexicographic comparison of the exponent triples (log2 k, log2 m, log2 n). -/
theorem C4_key_order (ek1 em1 en1 ek2 em2 en2 : Nat)
    (h1k : ek1 ≤ 15) (h1m : em1 ≤ 15) (h1n : en1 ≤ 15)
    (h2k : ek2 ≤ 15) (h2m : em2 ≤ 15) (h2n : en2 ≤ 15) :
    compact_size_triple (2 ^ ek1) (2 ^ em1) (2 ^ en1) <
        compact_size_triple (2 ^ ek2) (2 ^ em2) (2 ^ en2) ↔
      (ek1 < ek2 ∨ (ek1 = ek2 ∧ (em1 < em2 ∨ (em1 = em2 ∧ en1 < en2)))) := by
  have e1 : compact_size_triple (2 ^ ek1) (2 ^ em1) (2 ^ en1) =
      ek1 * 256 + em1 * 16 + en1 := by
    unfold compact_size_triple
    rw [log2_pot_pow, log2_pot_pow, log2_pot_pow]
    exact pack_val ek1 (by omega) em1 (by omega) en1 (by omega)
  have e2 : compact_size_triple (2 ^ ek2) (2 ^ em2) (2 ^ en2) =
      ek2 * 256 + em2 * 16 + en2 := by
    unfold compact_size_triple
    rw [log2_pot_pow, log2_pot_pow, log2_pot_pow]
    exact pack_val ek2 (by omega) em2 (by omega) en2 (by omega)
  rw [e1, e2]
  omega

/-- C4 witness: (2^1, 2^2, 2^3) against (2^1, 2^3, 2^0). -/
theorem C4_key_order_witness :
    (1 ≤ 15 ∧ 2 ≤ 15 ∧ 3 ≤ 15 ∧ 1 ≤ 15 ∧ 3 ≤ 15 ∧ 0 ≤ 15) ∧
    (compact_size_triple (2 ^ 1) (2 ^ 2) (2 ^ 3) <
        compact_size_triple (2 ^ 1) (2 ^ 3) (2 ^ 0) ↔
      (1 < 1 ∨ (1 = 1 ∧ (2 < 3 ∨ (2 = 3 ∧ 3 < 0))))) :=
  ⟨by norm_num,
    C4_key_order 1 2 3 1 3 0 (by norm_num) (by norm_num) (by norm_num)
      (by norm_num) (by norm_num) (by norm_num)⟩

/-- C5: whenever the scheduler loop reaches a calibration point (all trials
done, or more than 60 s of wall time since the last clock-speed measurement)
and the probe reads a clock speed strictly above 1.01 × the best seen so far,
the call returns with the best-seen speed set to the probed value and the
checkpoint (`first_benchmark_to_run`) reset to 0 — so the driver loop of
`run_benchmarks` (lines 484-489) reruns the whole trial list from the
beginning — and the trial list itself is left exactly as it was (in
particular it is not reordered). -/
theorem C5_upward_restart (env : sched_env) (st : loop_state) (fuel : Nat)
    (hcal : st.benchmark_index = st.benchmarks.length ∨
            env.real_time st.time_ctr > st.time_last_clock_speed_measurement + 60)
    (hup : env.probe st.probe_ctr > tolerance_higher_clock_speed * st.max_clock_speed) :
    ∃ st2 : loop_state,
      sched_loop env (fuel + 1) st = .returned st2 ∧
      st2.first_benchmark_to_run = 0 ∧
      st2.max_clock_speed = env.probe st.probe_ctr ∧
      st2.benchmarks = st.benchmarks := by
  refine ⟨{ st with
      time_ctr := st.time_ctr + 1,
      time_last_clock_speed_measurement := env.real_time st.time_ctr,
      probe_ctr := st.probe_ctr + 1,
      max_clock_speed := env.probe st.probe_ctr,
      first_benchmark_to_run := 0 }, ?_, rfl, rfl, rfl⟩
  have hc := calibration_step_upward env (env.real_time st.time_ctr)
    { st with time_ctr := st.time_ctr + 1 } (by simpa using hcal) (by simpa using hup)
  simp only [sched_loop]
  rw [hc]

/-- C5 witness: an empty trial list (calibration point by completion) with the
probe reading twice the baseline. -/
theorem C5_upward_restart_witness :
    ((0 : Nat) = ([] : List benchmark_t).length ∨ (0:ℚ) > 0 + 60) ∧
    ∃ st2 : loop_state,
      sched_loop ⟨fun _ => 0, fun _ => 2, fun _ => 1, fun _ => 1⟩ (0 + 1)
          ⟨[], 0, 1, 0, 0, 0, 0, 0⟩ = .returned st2 ∧
      st2.first_benchmark_to_run = 0 ∧
      st2.max_clock_speed = 2 ∧
      st2.benchmarks = [] :=
  ⟨Or.inl rfl,
    C5_upward_restart ⟨fun _ => 0, fun _ => 2, fun _ => 1, fun _ => 1⟩
      ⟨[], 0, 1, 0, 0, 0, 0, 0⟩ 0 (Or.inl rfl)
      (by norm_num [tolerance_higher_clock_speed])⟩

/-- C6: if every re-probe stays below the 0.98 tolerance, the backoff loop
dies fatally after sleeping exactly 1, 2, 4, ..., 256 seconds — each sleep
doubling the previous one and followed by one re-probe (9 probes for 9
sleeps) — for a cumulative 511 s > 300 s; every earlier point of the loop had
slept at most 300 s in total, so the fatal exit happens only after the
cumulative sleep exceeds 300 s, and not before. -/
theorem C6_backoff_gives_up (max_clock_speed : ℚ) (probe : Nat → ℚ) (current : ℚ) (p : Nat)
    (hcur : current < tolerance_lower_clock_speed * max_clock_speed)
    (hlow : ∀ k, probe k < tolerance_lower_clock_speed * max_clock_speed) :
    sleep_backoff max_clock_speed probe current 1 p [] Nat.one_pos =
      .error ([1, 2, 4, 8, 16, 32, 64, 128, 256], p + 9) ∧
    ([1, 2, 4, 8, 16, 32, 64, 128, 256] : List Nat).sum = 511 ∧
    300 < ([1, 2, 4, 8, 16, 32, 64, 128, 256] : List Nat).sum ∧
    (∀ i < 9, (([1, 2, 4, 8, 16, 32, 64, 128, 256] : List Nat).take i).sum ≤ 300) ∧
    (∀ i < 8, ([1, 2, 4, 8, 16, 32, 64, 128, 256] : List Nat).getD (i + 1) 0 =
      2 * ([1, 2, 4, 8, 16, 32, 64, 128, 256] : List Nat).getD i 0) := by
  refine ⟨?_, by decide, by decide, by decide, by decide⟩
  simp [sleep_backoff, hcur, hlow]

/-- C6 witness: a probe stuck at zero against baseline 100. -/
theorem C6_backoff_gives_up_witness :
    ((0:ℚ) < tolerance_lower_clock_speed * 100) ∧
    (sleep_backoff 100 (fun _ => 0) 0 1 0 [] Nat.one_pos =
        .error ([1, 2, 4, 8, 16, 32, 64, 128, 256], 0 + 9) ∧
      ([1, 2, 4, 8, 16, 32, 64, 128, 256] : List Nat).sum = 511 ∧
      300 < ([1, 2, 4, 8, 16, 32, 64, 128, 256] : List Nat).sum ∧
      (∀ i < 9, (([1, 2, 4, 8, 16, 32, 64, 128, 256] : List Nat).take i).sum ≤ 300) ∧
      (∀ i < 8, ([1, 2, 4, 8, 16, 32, 64, 128, 256] : List Nat).getD (i + 1) 0 =
        2 * ([1, 2, 4, 8, 16, 32, 64, 128, 256] : List Nat).getD i 0)) :=
  ⟨by norm_num [tolerance_lower_clock_speed],
    C6_backoff_gives_up 100 (fun _ => 0) 0 0
      (by norm_num [tolerance_lower_clock_speed])
      (fun k => by norm_num [tolerance_lower_clock_speed])⟩

/-- C7: one Clock Probe invocation takes its 8 measurements, sorts them,
discards the two lowest and two highest, and returns the sum of the four
middle-ranked values times a fixed constant (this is the definition of
`measure_clock_speed`); consequently, over deterministic measurement lists,
a pointwise-higher measurement list yields a higher returned estimate
(monotone for pointwise ≤, strictly for pointwise <). -/
theorem C7_clock_probe_monotone (g1 g2 : Nat → ℚ) :
    ((∀ i < 8, g1 i ≤ g2 i) → measure_clock_speed g1 ≤ measure_clock_speed g2) ∧
    ((∀ i < 8, g1 i < g2 i) → measure_clock_speed g1 < measure_clock_speed g2) := by
  have hlen : (((List.range 8).map g1).insertionSort (· ≤ ·)).length = 8 := by
    rw [List.length_insertionSort, List.length_map, List.length_range]
  constructor
  · intro h
    have hf : List.Forall₂ (· ≤ ·) ((List.range 8).map g1) ((List.range 8).map g2) :=
      forall₂_map_map g1 g2 _ (fun x hx => h x (List.mem_range.mp hx))
    have hs := insertionSort_mono_le _ _ hf
    have h2 := forall₂_getD _ _ hs 2 (by rw [hlen]; norm_num)
    have h3 := forall₂_getD _ _ hs 3 (by rw [hlen]; norm_num)
    have h4 := forall₂_getD _ _ hs 4 (by rw [hlen]; norm_num)
    have h5 := forall₂_getD _ _ hs 5 (by rw [hlen]; norm_num)
    simp only [measure_clock_speed]
    have hc : (0:ℚ) ≤ 123456/1000 := by norm_num
    apply mul_le_mul_of_nonneg_right _ hc
    linarith
  · intro h
    have hf : List.Forall₂ (· < ·) ((List.range 8).map g1) ((List.range 8).map g2) :=
      forall₂_map_map g1 g2 _ (fun x hx => h x (List.mem_range.mp hx))
    have hs := insertionSort_mono_lt _ _ hf
    have h2 := forall₂_getD _ _ hs 2 (by rw [hlen]; norm_num)
    have h3 := forall₂_getD _ _ hs 3 (by rw [hlen]; norm_num)
    have h4 := forall₂_getD _ _ hs 4 (by rw [hlen]; norm_num)
    have h5 := forall₂_getD _ _ hs 5 (by rw [hlen]; norm_num)
    simp only [measure_clock_speed]
    have hc : (0:ℚ) < 123456/1000 := by norm_num
    apply mul_lt_mul_of_pos_right _ hc
    linarith

/-- C7 witness: the constant streams 0 and 1. -/
theorem C7_clock_probe_monotone_witness :
    (measure_clock_speed (fun _ => 0) ≤ measure_clock_speed (fun _ => 1)) ∧
    (measure_clock_speed (fun _ => 0) < measure_clock_speed (fun _ => 1)) :=
  ⟨(C7_clock_probe_monotone (fun _ => 0) (fun _ => 1)).1 (fun i _ => by norm_num),
    (C7_clock_probe_monotone (fun _ => 0) (fun _ => 1)).2 (fun i _ => by norm_num)⟩

/-- Unfold one `log2_pot` halving step on an input of at least 2. -/
lemma log2_pot_step (x : Nat) (h : 2 ≤ x) : log2_pot x = log2_pot (x / 2) + 1 := by
  rw [log2_pot]
  rw [if_neg (by omega)]

/-- C8 counterexample: the clock probe's own trial — product size 128³ with
working-set override 1 byte (`measure_clock_speed`, lines 301-302) — gets a
pool of footprint 196608 bytes, far below
`max(override, 64 MiB) = 67108864`; the override *replaces* the large-cache
constant instead of being maxed with it. -/
theorem C8_counterexample :
    benchmark_t.mkDefault 128 128 128 1 (1/10) =
      ⟨1911, 0, true, 0, 1, 1/10⟩ ∧
    pool_footprint ⟨1911, 0, true, 0, 1, 1/10⟩ = 196608 ∧
    unlikely_large_cache_size = 67108864 ∧
    ¬ (max 1 unlikely_large_cache_size ≤ pool_footprint ⟨1911, 0, true, 0, 1, 1/10⟩) := by
  refine ⟨?_, by decide, by decide, by decide⟩
  have hlog : log2_pot 128 = 7 := by
    rw [show (128 : Nat) = 2 ^ 7 by norm_num, log2_pot_pow]
  simp [benchmark_t.mkDefault, compact_size_triple, hlog]

/-- C8 (amended): the pool footprint is at least the *selected* working-set
size: the nonzero per-trial override when one is supplied, and the 64 MiB
larger-than-any-real-cache constant only when the override is 0. A nonzero
override smaller than 64 MiB deliberately shrinks the pool below the
constant (that is how the warm-cache clock probe is implemented). -/
theorem C8_amended_pool_bound (b : benchmark_t) :
    working_set_size b ≤ pool_footprint b :=
  pool_footprint_ge b

/-- C9 counterexample: a one-trial run in which the trial's throughput field
is written twice with different values. The first
`try_run_some_benchmarks` call runs the trial (gflops 0 → 8192/10^9), then a
calibration reads a clock speed above tolerance and returns with checkpoint
0; since the returned checkpoint 0 is less than the list length 1, the
driver loop of `run_benchmarks` (lines 484-489) calls again, and the second
call reruns the same trial, overwriting gflops with 4096/10^9 ≠ 8192/10^9.
So the throughput field is not "mutated exactly once and never again". -/
theorem C9_counterexample :
    (try_run_some_benchmarks
        ⟨fun _ => 0, fun _ => 2, fun r => if r = 0 then 1 else 2, fun _ => 1⟩ 4
        [⟨1092, 0, true, 0, 0, 1/100⟩] 0 1 0 0 0 =
      .returned ⟨[⟨1092, 0, true, 8192/10^9, 0, 1/100⟩], 0, 2, 1, 0, 2, 1, 1⟩) ∧
    (try_run_some_benchmarks
        ⟨fun _ => 0, fun _ => 2, fun r => if r = 0 then 1 else 2, fun _ => 1⟩ 4
        [⟨1092, 0, true, 8192/10^9, 0, 1/100⟩] 0 2 2 1 1 =
      .returned ⟨[⟨1092, 0, true, 4096/10^9, 0, 1/100⟩], 1, 2, 1, 0, 4, 2, 2⟩) ∧
    (8192/10^9 : ℚ) ≠ 0 ∧ (4096/10^9 : ℚ) ≠ 8192/10^9 := by
  have h : size_triple_t.ofCompact 1092 = ⟨16, 16, 16⟩ := by decide
  refine ⟨?_, ?_, by norm_num, by norm_num⟩
  · norm_num [try_run_some_benchmarks]
    rw [show (4:ℕ) = 3+1 from rfl, sched_loop_succ]
    norm_num [calibration_step, benchmark_t.run, run_loop, h]
    rw [show (3:ℕ) = 2+1 from rfl, sched_loop_succ]
    norm_num [calibration_step, tolerance_higher_clock_speed]
  · norm_num [try_run_some_benchmarks]
    rw [show (4:ℕ) = 3+1 from rfl, sched_loop_succ]
    norm_num [calibration_step, benchmark_t.run, run_loop, h]
    rw [show (3:ℕ) = 2+1 from rfl, sched_loop_succ]
    norm_num [calibration_step, tolerance_higher_clock_speed, tolerance_lower_clock_speed]

/-- C9 (amended): every trial is created with throughput 0, and the
throughput field is mutated only by the Adaptive Timer's `run`, which leaves
every other field (problem-size key, block-size key, default-block flag,
per-trial overrides) unchanged; after a drift-triggered restart or rerun the
scheduler may invoke `run` again on the same trial, overwriting the
throughput. -/
theorem C9_amended_mutation :
    (∀ (pk pm pn bk bm bn ws : Nat) (t : ℚ),
      (benchmark_t.mkCustom pk pm pn bk bm bn ws t).gflops = 0) ∧
    (∀ (pk pm pn ws : Nat) (t : ℚ), (benchmark_t.mkDefault pk pm pn ws t).gflops = 0) ∧
    (∀ (b : benchmark_t) (cost : ℚ) (fuel : Nat) (b2 : benchmark_t),
      b.run cost fuel = some b2 →
        b2.compact_product_size = b.compact_product_size ∧
        b2.compact_block_size = b.compact_block_size ∧
        b2.use_default_block_size = b.use_default_block_size ∧
        b2.min_working_set_size = b.min_working_set_size ∧
        b2.min_accurate_time = b.min_accurate_time) :=
  ⟨fun _ _ _ _ _ _ _ _ => rfl, fun _ _ _ _ _ => rfl, benchmark_run_frame⟩

/-- C9 witness: one concrete `run` call and the frame of its non-throughput
fields. -/
theorem C9_amended_mutation_witness :
    ((⟨1092, 0, true, 8192/10^9, 0, 1/100⟩ : benchmark_t).compact_product_size =
        (⟨1092, 0, true, 0, 0, 1/100⟩ : benchmark_t).compact_product_size ∧
      (⟨1092, 0, true, 8192/10^9, 0, 1/100⟩ : benchmark_t).compact_block_size =
        (⟨1092, 0, true, 0, 0, 1/100⟩ : benchmark_t).compact_block_size ∧
      (⟨1092, 0, true, 8192/10^9, 0, 1/100⟩ : benchmark_t).use_default_block_size =
        (⟨1092, 0, true, 0, 0, 1/100⟩ : benchmark_t).use_default_block_size ∧
      (⟨1092, 0, true, 8192/10^9, 0, 1/100⟩ : benchmark_t).min_working_set_size =
        (⟨1092, 0, true, 0, 0, 1/100⟩ : benchmark_t).min_working_set_size ∧
      (⟨1092, 0, true, 8192/10^9, 0, 1/100⟩ : benchmark_t).min_accurate_time =
        (⟨1092, 0, true, 0, 0, 1/100⟩ : benchmark_t).min_accurate_time) :=
  C9_amended_mutation.2.2 ⟨1092, 0, true, 0, 0, 1/100⟩ 1 1
    ⟨1092, 0, true, 8192/10^9, 0, 1/100⟩
    (by
      have h : size_triple_t.ofCompact 1092 = ⟨16, 16, 16⟩ := by decide
      norm_num [benchmark_t.run, run_loop, h])

/-- C10: `log2_pot` is total — on 0 it returns 0, and on every positive
input (power of two or not) it returns the floor of the base-2 logarithm,
i.e. the position of the highest set bit; consequently encoding a
non-power-of-two dimension does not fail but silently rounds it down to the
nearest power of two: decoding the encoded key yields `2 ^ log2_pot` of each
dimension. -/
theorem C10_log2_pot_total :
    log2_pot 0 = 0 ∧
    (∀ x : Nat, 1 ≤ x → 2 ^ log2_pot x ≤ x ∧ x < 2 ^ (log2_pot x + 1)) ∧
    (∀ k m n : Nat, log2_pot k ≤ 15 → log2_pot m ≤ 15 → log2_pot n ≤ 15 →
      size_triple_t.ofCompact (compact_size_triple k m n) =
        ⟨2 ^ log2_pot k, 2 ^ log2_pot m, 2 ^ log2_pot n⟩) :=
  ⟨log2_pot_zero, log2_pot_spec, ofCompact_compact⟩

/-- C10 witness: the non-powers-of-two 48 and 7 (and the valid dimension 1):
48 encodes as exponent 5 and decodes to 32, silently rounded down. -/
theorem C10_log2_pot_total_witness :
    (1 ≤ 48 ∧ 2 ^ log2_pot 48 ≤ 48 ∧ 48 < 2 ^ (log2_pot 48 + 1)) ∧
    (log2_pot 48 ≤ 15 ∧ log2_pot 1 ≤ 15 ∧ log2_pot 7 ≤ 15) ∧
    size_triple_t.ofCompact (compact_size_triple 48 1 7) =
      ⟨2 ^ log2_pot 48, 2 ^ log2_pot 1, 2 ^ log2_pot 7⟩ ∧
    (2 : Nat) ^ log2_pot 48 = 32 := by
  have h48 : log2_pot 48 = 5 := by
    rw [log2_pot_step 48 (by norm_num)]
    norm_num
    rw [log2_pot_step 24 (by norm_num)]
    norm_num
    rw [log2_pot_step 12 (by norm_num)]
    norm_num
    rw [log2_pot_step 6 (by norm_num)]
    norm_num
    rw [log2_pot_step 3 (by norm_num)]
    norm_num
    rw [show (1 : Nat) = 2 ^ 0 by norm_num, log2_pot_pow]
    norm_num
  have h1 : log2_pot 1 = 0 := by
    rw [show (1 : Nat) = 2 ^ 0 by norm_num, log2_pot_pow]
  have h7 : log2_pot 7 = 2 := by
    rw [log2_pot_step 7 (by norm_num)]
    norm_num
    rw [log2_pot_step 3 (by norm_num)]
    norm_num
    rw [show (1 : Nat) = 2 ^ 0 by norm_num, log2_pot_pow]
    norm_num
  refine ⟨⟨by norm_num, C10_log2_pot_total.2.1 48 (by norm_num)⟩,
    ⟨by rw [h48]; norm_num, by rw [h1]; norm_num, by rw [h7]; norm_num⟩,
    C10_log2_pot_total.2.2 48 1 7 (by rw [h48]; norm_num) (by rw [h1]; norm_num)
      (by rw [h7]; norm_num),
    by rw [h48]; norm_num⟩
